import Mathlib

/-!
Verification development for the geometry-based form-field finder
(geofinder core: document index, phrase matcher, area selector,
key-value associator).  The implementation is modelled from the
specification document; geometry lives in the denormalized pixel
coordinate space (integers), similarity scores are rationals, block
identifiers are naturals.
-/

namespace GeoFinder

/-- Modelled from the spec: a point in page coordinate space
(`TPoint` with `x` and `y`); the pixel coordinate space of the index's
denormalization scale, hence integer-valued. -/
structure TPoint where
  x : ℤ
  y : ℤ
deriving DecidableEq

/-- Modelled from the spec: an axis-aligned bounding box with
`xmin <= xmax` and `ymin <= ymax` expected (the invariant is not
enforced by the type, matching the raw input boundary). -/
structure Box where
  xmin : ℤ
  ymin : ℤ
  xmax : ℤ
  ymax : ℤ
deriving DecidableEq

/-- Modelled from the spec: the closed set of block types
{PAGE, LINE, WORD, KEY_VALUE_SET, SELECTION_ELEMENT}. -/
inductive BlockType where
  | page
  | line
  | word
  | keyValueSet
  | selectionElement
deriving DecidableEq

/-- Modelled from the spec: the atomic Block with identifier, type,
text, geometry, confidence, and relationship edges.  The TYPE/VALUE
edges of a KEY_VALUE_SET key block are `valueIds`; the CHILD edges are
`childIds`.  Identifiers are modelled as naturals (the spec only
requires uniqueness within the document). -/
structure Block where
  id : ℕ
  btype : BlockType
  text : String
  box : Box
  confidence : ℤ
  valueIds : List ℕ
  childIds : List ℕ
deriving DecidableEq

/-- Modelled from the spec: a Document is an ordered sequence of pages,
each page an ordered sequence of Blocks. -/
structure Document where
  pages : List (List Block)
deriving DecidableEq

/-- All blocks of the document, in page order then in-page order. -/
def Document.allBlocks (d : Document) : List Block :=
  d.pages.flatten

/-- All identifiers present in the document. -/
def Document.ids (d : Document) : List ℕ :=
  d.allBlocks.map (fun b => b.id)

/-- Modelled from the spec: the error taxonomy — `MalformedDocumentError`,
`NotFoundError`, `InvalidAreaError`. -/
inductive GeoError where
  | malformedDocument
  | notFound
  | invalidArea
deriving DecidableEq

/-- Modelled from the spec: a derived KeyValue pairing of a key Block
with a value Block (possibly a SELECTION_ELEMENT). -/
structure KeyValue where
  key : Block
  value : Block
deriving DecidableEq

/-- Modelled from the spec: an Area is a page-scoped rectangle given by
a top-left and a bottom-right corner, optionally restricted to a page. -/
structure AreaSelection where
  topLeft : TPoint
  lowerRight : TPoint
  page : Option ℕ
deriving DecidableEq

/-- The corner invariant of an area: top-left is above-left of
bottom-right. -/
def cornerInvariant (tl lr : TPoint) : Prop :=
  tl.y ≤ lr.y ∧ tl.x ≤ lr.x

instance (tl lr : TPoint) : Decidable (cornerInvariant tl lr) := by
  unfold cornerInvariant
  infer_instance

/-- Modelled from the spec: Area construction fails with
`InvalidAreaError` when the corner invariant is violated. -/
def mkArea (tl lr : TPoint) (pg : Option ℕ) : Except GeoError AreaSelection :=
  if cornerInvariant tl lr then Except.ok ⟨tl, lr, pg⟩
  else Except.error GeoError.invalidArea

/-- The box spanned by an area's two corners. -/
def areaBox (a : AreaSelection) : Box :=
  ⟨a.topLeft.x, a.topLeft.y, a.lowerRight.x, a.lowerRight.y⟩

/-- Modelled from the spec: the fixed containment policy — a block is in
the area when its bounding box is fully enclosed by the area's box. -/
def containsBox (a b : Box) : Bool :=
  decide (a.xmin ≤ b.xmin) && decide (b.xmax ≤ a.xmax) &&
    decide (a.ymin ≤ b.ymin) && decide (b.ymax ≤ a.ymax)

/-- Lookup of a block by identifier, first match in document order. -/
def blockById? (d : Document) (i : ℕ) : Option Block :=
  d.allBlocks.find? (fun b => b.id = i)

/-- Resolve a list of identifiers; `none` as soon as one is dangling. -/
def resolveAll (d : Document) : List ℕ → Option (List Block)
  | [] => some []
  | i :: is =>
    match blockById? d i, resolveAll d is with
    | some b, some bs => some (b :: bs)
    | _, _ => none

/-- A key block: a KEY_VALUE_SET block carrying TYPE/VALUE edges. -/
def isKeyBlock (b : Block) : Bool :=
  decide (b.btype = BlockType.keyValueSet) && !b.valueIds.isEmpty

/-- Modelled from the spec: a KEY_VALUE_SET key block is well formed when
its relationships resolve to exactly one value target or to a well-formed
multi-selection value group (every member a SELECTION_ELEMENT), and its
child set resolves to WORD/SELECTION_ELEMENT blocks. -/
def wellFormedKey (d : Document) (b : Block) : Bool :=
  match resolveAll d b.valueIds with
  | none => false
  | some vs =>
    (decide (vs.length = 1) ||
      (!vs.isEmpty && vs.all (fun v => v.btype = BlockType.selectionElement))) &&
    (match resolveAll d b.childIds with
     | none => false
     | some cs =>
       cs.all (fun c =>
         c.btype = BlockType.word ∨ c.btype = BlockType.selectionElement))

/-- A document is well formed when every key block is. -/
def wellFormedDoc (d : Document) : Bool :=
  d.allBlocks.all (fun b => !isKeyBlock b || wellFormedKey d b)

/-- Modelled from the spec: the query-ready index over a document, with
the denormalization scale (target page width and height). -/
structure Index where
  doc : Document
  width : ℤ
  height : ℤ
deriving DecidableEq

/-- Modelled from the spec: index construction fails with
`MalformedDocumentError` at build time when some KEY_VALUE_SET block's
relationships do not resolve as required; no partial index is produced. -/
def build (d : Document) (w h : ℤ) : Except GeoError Index :=
  if wellFormedDoc d then Except.ok ⟨d, w, h⟩
  else Except.error GeoError.malformedDocument

/-- Modelled from the spec: block lookup on the index fails closed with
`NotFoundError` when the identifier is absent. -/
def Index.blockById (idx : Index) (i : ℕ) : Except GeoError Block :=
  match blockById? idx.doc i with
  | some b => Except.ok b
  | none => Except.error GeoError.notFound

/-- The key-value pairs contributed by one page, in reading/insertion
order: each key block in page order, paired with its resolved value
target(s). -/
def kvsOfPage (d : Document) (pg : List Block) : List KeyValue :=
  pg.flatMap (fun b =>
    if isKeyBlock b then
      ((resolveAll d b.valueIds).getD []).map (fun v => ⟨b, v⟩)
    else [])

/-- Modelled from the spec: `key_values(page)` in insertion/reading order
as encountered on the page. -/
def Index.keyValues (idx : Index) (pg : ℕ) : List KeyValue :=
  kvsOfPage idx.doc (idx.doc.pages.getD pg [])

/-- Key values of the page an area is restricted to, or of all pages when
the area is unrestricted. -/
def keyValuesAt (idx : Index) (pg : Option ℕ) : List KeyValue :=
  match pg with
  | some p => idx.keyValues p
  | none => (List.range idx.doc.pages.length).flatMap idx.keyValues

/-- Modelled from the spec: the extraction loop of `form_fields_in` —
walk the page's key-value listing and keep the pairs whose key block is
contained in the area. -/
def filterContained (abox : Box) : List KeyValue → List KeyValue
  | [] => []
  | kv :: rest =>
    if containsBox abox kv.key.box then kv :: filterContained abox rest
    else filterContained abox rest

/-- Modelled from the spec: `form_fields_in(area, index)`. -/
def formFieldsIn (a : AreaSelection) (idx : Index) : List KeyValue :=
  filterContained (areaBox a) (keyValuesAt idx a.page)

/-- Append a block at the end of the page with the given index, leaving
every other page unchanged. -/
def appendAt : List (List Block) → ℕ → Block → List (List Block)
  | [], _, _ => []
  | pg :: rest, 0, nb => (pg ++ [nb]) :: rest
  | pg :: rest, p + 1, nb => pg :: appendAt rest p nb

/-- A fresh identifier: strictly larger than every identifier in use. -/
def freshId (d : Document) : ℕ :=
  d.ids.foldr max 0 + 1

/-- Modelled from the spec: the virtual KEY_VALUE_SET block created by
`add_virtual_key` — text is the new key name, relationships point to the
same value target(s) as the existing key block, identifier freshly
allocated. -/
def mkVirtualBlock (name : String) (k : Block) (d : Document) : Block :=
  ⟨freshId d, BlockType.keyValueSet, name, k.box, k.confidence,
    k.valueIds, k.childIds⟩

/-- Modelled from the spec: `add_virtual_key(new_key_name,
existing_key_block, page)` — append the virtual block to the target page
(non-destructive: the document is mutated only by the append) and return
the new document together with the created block. -/
def addVirtualKey (name : String) (k : Block) (p : ℕ) (d : Document) :
    Document × Block :=
  let nb := mkVirtualBlock name k d
  (⟨appendAt d.pages p nb⟩, nb)

/-- Lower-case a character list (ASCII case folding, the recognizer's
output alphabet). -/
def toLowerList (l : List Char) : List Char :=
  l.map Char.toLower

/-- Split a character list into maximal space-free words, accumulator
style. -/
def splitWords : List Char → List Char → List (List Char)
  | [], acc => if acc.isEmpty then [] else [acc.reverse]
  | c :: cs, acc =>
    if c = ' ' then
      if acc.isEmpty then splitWords cs []
      else acc.reverse :: splitWords cs []
    else splitWords cs (c :: acc)

/-- The words of a character list. -/
def wordsOf (l : List Char) : List (List Char) :=
  splitWords l []

/-- Join words back with single spaces. -/
def joinWords : List (List Char) → List Char
  | [] => []
  | [w] => w
  | w :: ws => w ++ ' ' :: joinWords ws

/-- Modelled from the spec: case/whitespace normalization of a text —
lower-cased, runs of spaces collapsed, ends trimmed. -/
def normChars (s : String) : List Char :=
  joinWords (wordsOf (toLowerList s.data))

/-- Fuelled Levenshtein distance over character lists (unit costs); the
fuel is an upper bound on the summed lengths, making the recursion
structural. -/
def levFuel : ℕ → List Char → List Char → ℕ
  | _, [], ys => ys.length
  | _, x :: xs, [] => (x :: xs).length
  | 0, _, _ => 0
  | f + 1, x :: xs, y :: ys =>
    if x = y then levFuel f xs ys
    else 1 + min (levFuel f xs (y :: ys))
      (min (levFuel f (x :: xs) ys) (levFuel f xs ys))

/-- Modelled from the spec: character-level edit distance, the acceptable
instantiation of the text-distance metric. -/
def lev (xs ys : List Char) : ℕ :=
  levFuel (xs.length + ys.length) xs ys

/-- Modelled from the spec: the normalized similarity score in [0,1] —
1 minus the edit distance of the normalized texts divided by the longer
normalized length (1 when both normalize to empty). -/
def textScore (a b : String) : ℚ :=
  let x := normChars a
  let y := normChars b
  if max x.length y.length = 0 then 1
  else 1 - (lev x y : ℚ) / (max x.length y.length : ℕ)

/-- Modelled from the spec: result of a phrase search — matched text,
union bounding box, similarity score, page number. -/
structure PhraseMatch where
  text : String
  box : Box
  score : ℚ
  page : ℕ
deriving DecidableEq

/-- Union of two boxes. -/
def unionBox (a b : Box) : Box :=
  ⟨min a.xmin b.xmin, min a.ymin b.ymin, max a.xmax b.xmax, max a.ymax b.ymax⟩

/-- Union bounding box of a run of blocks (degenerate box for the empty
run, which never arises from window generation). -/
def boxOfBlocks : List Block → Box
  | [] => ⟨0, 0, 0, 0⟩
  | b :: bs => bs.foldl (fun acc c => unionBox acc c.box) b.box

/-- Concatenated text of a run of blocks, single-space separated. -/
def joinTexts : List Block → String
  | [] => ""
  | [b] => b.text
  | b :: bs => b.text ++ " " ++ joinTexts bs

/-- Nonempty prefixes of a block list, of length at most `n`. -/
def nePrefixesUpTo : ℕ → List Block → List (List Block)
  | _, [] => []
  | 0, _ :: _ => []
  | n + 1, b :: bs => [b] :: (nePrefixesUpTo n bs).map (fun w => b :: w)

/-- All suffixes of a list, the list itself first. -/
def suffixesOf : List Block → List (List Block)
  | [] => [[]]
  | b :: bs => (b :: bs) :: suffixesOf bs

/-- Sliding windows: contiguous nonempty runs of length at most `n`. -/
def windowsUpTo (n : ℕ) (l : List Block) : List (List Block) :=
  (suffixesOf l).flatMap (nePrefixesUpTo n)

/-- Word count of the normalized phrase. -/
def phraseWordCount (phrase : String) : ℕ :=
  (wordsOf (toLowerList phrase.data)).length

/-- Modelled from the spec: the small slack added to the phrase's word
count when bounding window sizes. -/
def windowSlack : ℕ := 2

/-- Modelled from the spec: candidate windows — every LINE block, plus
contiguous runs of WORD blocks with window sizes from 1 up to the
phrase's word count plus a small slack; each candidate is its text and
union bounding box. -/
def candidatesOn (page : List Block) (phrase : String) :
    List (String × Box) :=
  (page.filter (fun b => b.btype = BlockType.line)).map
      (fun b => (b.text, b.box)) ++
    (windowsUpTo (phraseWordCount phrase + windowSlack)
        (page.filter (fun b => b.btype = BlockType.word))).map
      (fun ws => (joinTexts ws, boxOfBlocks ws))

/-- Every candidate scored against the query phrase. -/
def scoredMatches (page : List Block) (pageNo : ℕ) (phrase : String) :
    List PhraseMatch :=
  (candidatesOn page phrase).map
    (fun c => ⟨c.1, c.2, textScore phrase c.1, pageNo⟩)

/-- Modelled from the spec: the result order of a phrase search —
descending similarity score, ties broken by reading order (ascending top
coordinate, then ascending left coordinate). -/
def matchLE (a b : PhraseMatch) : Prop :=
  b.score < a.score ∨
    (a.score = b.score ∧
      (a.box.ymin < b.box.ymin ∨
        (a.box.ymin = b.box.ymin ∧ a.box.xmin ≤ b.box.xmin)))

instance : DecidableRel matchLE := fun a b => by
  unfold matchLE
  infer_instance

/-- Modelled from the spec: `find_phrase(page, phrase, min_text_distance)`
— score all candidate windows, discard those below the threshold, order
the survivors by descending score with reading-order tie-breaks. -/
def findPhraseOnPage (page : List Block) (pageNo : ℕ) (phrase : String)
    (minDist : ℚ) : List PhraseMatch :=
  List.insertionSort matchLE
    ((scoredMatches page pageNo phrase).filter
      (fun m => minDist ≤ m.score))

/-- Modelled from the spec: reading order on blocks — top-to-bottom,
then left-to-right. -/
def readLE (a b : Block) : Prop :=
  a.box.ymin < b.box.ymin ∨
    (a.box.ymin = b.box.ymin ∧ a.box.xmin ≤ b.box.xmin)

instance : DecidableRel readLE := fun a b => by
  unfold readLE
  infer_instance

/-- Blocks of the page an area is restricted to, or of all pages. -/
def blocksAt (d : Document) (pg : Option ℕ) : List Block :=
  match pg with
  | some p => d.pages.getD p []
  | none => d.allBlocks

/-- Modelled from the spec: `elements_in(area, index, block_types)` —
the blocks of the requested types on the area's page whose bounding box
satisfies the containment policy, in reading order. -/
def elementsIn (a : AreaSelection) (idx : Index) (types : List BlockType) :
    List Block :=
  List.insertionSort readLE
    ((blocksAt idx.doc a.page).filter
      (fun b => decide (b.btype ∈ types) && containsBox (areaBox a) b.box))

instance : IsTotal PhraseMatch matchLE := by
  constructor
  intro a b
  unfold matchLE
  rcases lt_trichotomy a.score b.score with h | h | h
  · exact Or.inr (Or.inl h)
  · rcases lt_trichotomy a.box.ymin b.box.ymin with h2 | h2 | h2
    · exact Or.inl (Or.inr ⟨h, Or.inl h2⟩)
    · rcases le_total a.box.xmin b.box.xmin with h3 | h3
      · exact Or.inl (Or.inr ⟨h, Or.inr ⟨h2, h3⟩⟩)
      · exact Or.inr (Or.inr ⟨h.symm, Or.inr ⟨h2.symm, h3⟩⟩)
    · exact Or.inr (Or.inr ⟨h.symm, Or.inl h2⟩)
  · exact Or.inl (Or.inl h)

instance : IsTrans PhraseMatch matchLE := by
  constructor
  intro a b c hab hbc
  unfold matchLE at hab hbc ⊢
  rcases hab with h1 | ⟨e1, h1⟩
  · rcases hbc with h2 | ⟨e2, h2⟩
    · exact Or.inl (h2.trans h1)
    · exact Or.inl (e2 ▸ h1)
  · rcases hbc with h2 | ⟨e2, h2⟩
    · exact Or.inl (e1 ▸ h2)
    · refine Or.inr ⟨e1.trans e2, ?_⟩
      rcases h1 with g1 | ⟨f1, g1⟩
      · rcases h2 with g2 | ⟨f2, g2⟩
        · exact Or.inl (g1.trans g2)
        · exact Or.inl (f2 ▸ g1)
      · rcases h2 with g2 | ⟨f2, g2⟩
        · exact Or.inl (f1 ▸ g2)
        · exact Or.inr ⟨f1.trans f2, g1.trans g2⟩

instance : IsTotal Block readLE := by
  constructor
  intro a b
  unfold readLE
  rcases lt_trichotomy a.box.ymin b.box.ymin with h | h | h
  · exact Or.inl (Or.inl h)
  · rcases le_total a.box.xmin b.box.xmin with h3 | h3
    · exact Or.inl (Or.inr ⟨h, h3⟩)
    · exact Or.inr (Or.inr ⟨h.symm, h3⟩)
  · exact Or.inr (Or.inl h)

instance : IsTrans Block readLE := by
  constructor
  intro a b c hab hbc
  unfold readLE at hab hbc ⊢
  rcases hab with g1 | ⟨f1, g1⟩
  · rcases hbc with g2 | ⟨f2, g2⟩
    · exact Or.inl (g1.trans g2)
    · exact Or.inl (f2 ▸ g1)
  · rcases hbc with g2 | ⟨f2, g2⟩
    · exact Or.inl (f1 ▸ g2)
    · exact Or.inr ⟨f1.trans f2, g1.trans g2⟩

/-- Sample data (the patient-intake scenario, pixel scale 1000×1000):
a section heading line. -/
def line1 : Block :=
  ⟨1, BlockType.line, "Info A", ⟨100, 100, 600, 150⟩, 99, [], []⟩

/-- Sample data: a key block between the two heading lines. -/
def key1 : Block :=
  ⟨2, BlockType.keyValueSet, "Name:", ⟨100, 200, 300, 250⟩, 99, [3], []⟩

/-- Sample data: the value block of `key1`. -/
def val1 : Block :=
  ⟨3, BlockType.keyValueSet, "ALEJANDRO", ⟨350, 200, 500, 250⟩, 99, [], []⟩

/-- Sample data: a second heading line. -/
def line2 : Block :=
  ⟨4, BlockType.line, "Part B", ⟨100, 400, 600, 450⟩, 99, [], []⟩

/-- Sample data: a key block below the second heading. -/
def key2 : Block :=
  ⟨5, BlockType.keyValueSet, "Name:", ⟨100, 550, 300, 600⟩, 99, [6], []⟩

/-- Sample data: the value block of `key2`. -/
def val2 : Block :=
  ⟨6, BlockType.keyValueSet, "CARLOS", ⟨350, 550, 500, 600⟩, 99, [], []⟩

/-- Sample data: a lone word block. -/
def word1 : Block :=
  ⟨7, BlockType.word, "fever", ⟨100, 700, 200, 750⟩, 99, [], []⟩

/-- Sample data: the single page. -/
def samplePage : List Block :=
  [line1, key1, val1, line2, key2, val2, word1]

/-- Sample data: the document. -/
def sampleDoc : Document :=
  ⟨[samplePage]⟩

/-- Sample data: the built index over the sample document. -/
def sampleIdx : Index :=
  ⟨sampleDoc, 1000, 1000⟩

/-- Sample data: the area between the two heading lines. -/
def sampleArea : AreaSelection :=
  ⟨⟨0, 150⟩, ⟨1000, 400⟩, some 0⟩

/-- Degenerate data: a block whose bounding box is a single point. -/
def zBlock : Block :=
  ⟨1, BlockType.word, "x", ⟨500, 500, 500, 500⟩, 99, [], []⟩

/-- Degenerate data: a zero-area area at that same point. -/
def zArea : AreaSelection :=
  ⟨⟨500, 500⟩, ⟨500, 500⟩, some 0⟩

/-- Degenerate data: the index over the one-point-block document. -/
def zIdx : Index :=
  ⟨⟨[[zBlock]]⟩, 1000, 1000⟩

theorem filterContained_eq_filter (abox : Box) (l : List KeyValue) :
    filterContained abox l =
      l.filter (fun kv => containsBox abox kv.key.box) := by
  induction l with
  | nil => rfl
  | cons kv rest ih =>
    by_cases h : containsBox abox kv.key.box
    · simp [filterContained, List.filter, h, ih]
    · simp [filterContained, List.filter, h, ih]

theorem appendAt_length (ps : List (List Block)) (p : ℕ) (nb : Block) :
    (appendAt ps p nb).length = ps.length := by
  induction ps generalizing p with
  | nil => rfl
  | cons pg rest ih =>
    cases p with
    | zero => rfl
    | succ q => simp [appendAt, ih]

theorem appendAt_getD_eq (ps : List (List Block)) (p : ℕ) (nb : Block)
    (h : p < ps.length) :
    (appendAt ps p nb).getD p [] = ps.getD p [] ++ [nb] := by
  induction ps generalizing p with
  | nil => simp at h
  | cons pg rest ih =>
    cases p with
    | zero => rfl
    | succ q =>
      simp only [appendAt, List.getD_cons_succ]
      exact ih q (by simpa using h)

theorem appendAt_getD_ne (ps : List (List Block)) (p j : ℕ) (nb : Block)
    (hj : j ≠ p) :
    (appendAt ps p nb).getD j [] = ps.getD j [] := by
  induction ps generalizing p j with
  | nil => simp [appendAt]
  | cons pg rest ih =>
    cases p with
    | zero =>
      cases j with
      | zero => exact absurd rfl hj
      | succ i => rfl
    | succ q =>
      cases j with
      | zero => rfl
      | succ i =>
        simp only [appendAt, List.getD_cons_succ]
        exact ih q i (fun hc => hj (by rw [hc]))

theorem mem_appendAt (ps : List (List Block)) (p : ℕ) (nb b : Block)
    (hb : b ∈ (appendAt ps p nb).flatten) :
    b = nb ∨ b ∈ ps.flatten := by
  induction ps generalizing p with
  | nil => simp [appendAt] at hb
  | cons pg rest ih =>
    cases p with
    | zero =>
      simp only [appendAt, List.flatten_cons, List.mem_append,
        List.mem_singleton] at hb ⊢
      rcases hb with (hb | hb) | hb
      · exact Or.inr (Or.inl hb)
      · exact Or.inl hb
      · exact Or.inr (Or.inr hb)
    | succ q =>
      simp only [appendAt, List.flatten_cons, List.mem_append] at hb ⊢
      rcases hb with hb | hb
      · exact Or.inr (Or.inl hb)
      · rcases ih q hb with hb | hb
        · exact Or.inl hb
        · exact Or.inr (Or.inr hb)

theorem mem_appendAt_of_mem (ps : List (List Block)) (p : ℕ) (nb b : Block)
    (hb : b ∈ ps.flatten) :
    b ∈ (appendAt ps p nb).flatten := by
  induction ps generalizing p with
  | nil => simp at hb
  | cons pg rest ih =>
    cases p with
    | zero =>
      simp only [List.flatten_cons, List.mem_append] at hb
      simp only [appendAt, List.flatten_cons, List.mem_append]
      rcases hb with hb | hb
      · exact Or.inl (Or.inl hb)
      · exact Or.inr hb
    | succ q =>
      simp only [List.flatten_cons, List.mem_append] at hb
      simp only [appendAt, List.flatten_cons, List.mem_append]
      rcases hb with hb | hb
      · exact Or.inl hb
      · exact Or.inr (ih q hb)

theorem self_mem_appendAt (ps : List (List Block)) (p : ℕ) (nb : Block)
    (h : p < ps.length) :
    nb ∈ (appendAt ps p nb).flatten := by
  induction ps generalizing p with
  | nil => simp at h
  | cons pg rest ih =>
    cases p with
    | zero => simp [appendAt]
    | succ q =>
      simp only [appendAt, List.flatten_cons, List.mem_append]
      exact Or.inr (ih q (by simpa using h))

theorem appendAt_flatten_length (ps : List (List Block)) (p : ℕ) (nb : Block)
    (h : p < ps.length) :
    (appendAt ps p nb).flatten.length = ps.flatten.length + 1 := by
  induction ps generalizing p with
  | nil => simp at h
  | cons pg rest ih =>
    cases p with
    | zero =>
      simp [appendAt]
      omega
    | succ q =>
      simp only [appendAt, List.flatten_cons, List.length_append]
      rw [ih q (by simpa using h)]
      omega

theorem le_foldr_max (x : ℕ) (l : List ℕ) (hx : x ∈ l) :
    x ≤ l.foldr max 0 := by
  induction l with
  | nil => simp at hx
  | cons a as ih =>
    rcases List.mem_cons.mp hx with h | h
    · subst h
      exact le_max_left _ _
    · exact le_trans (ih h) (le_max_right _ _)

theorem freshId_not_mem (d : Document) : freshId d ∉ d.ids := by
  intro h
  have := le_foldr_max _ _ h
  unfold freshId at this
  omega

theorem levFuel_eq_zero_iff (f : ℕ) (xs ys : List Char)
    (hf : xs.length + ys.length ≤ f) :
    (levFuel f xs ys = 0 ↔ xs = ys) := by
  induction f generalizing xs ys with
  | zero =>
    cases xs with
    | nil =>
      cases ys with
      | nil => simp [levFuel]
      | cons y ys => simp at hf
    | cons x xs => simp at hf
  | succ g ih =>
    cases xs with
    | nil => simp [levFuel, eq_comm, List.length_eq_zero]
    | cons x xs =>
      cases ys with
      | nil => simp [levFuel]
      | cons y ys =>
        by_cases hxy : x = y
        · subst hxy
          have hstep : levFuel (g + 1) (x :: xs) (x :: ys) = levFuel g xs ys := by
            simp [levFuel]
          rw [hstep, ih xs ys (by simp at hf; omega)]
          simp
        · simp only [levFuel, if_neg hxy]
          constructor
          · intro h
            omega
          · intro h
            exact absurd (List.head_eq_of_cons_eq h) hxy

theorem lev_eq_zero_iff (xs ys : List Char) : lev xs ys = 0 ↔ xs = ys :=
  levFuel_eq_zero_iff _ xs ys le_rfl

theorem textScore_le_one (a b : String) : textScore a b ≤ 1 := by
  unfold textScore
  by_cases h : max (normChars a).length (normChars b).length = 0
  · simp [h]
  · simp only [if_neg h]
    have h1 : (0 : ℚ) ≤ (lev (normChars a) (normChars b) : ℚ) := by
      positivity
    have h2 : (0 : ℚ) ≤ ((max (normChars a).length (normChars b).length : ℕ) : ℚ) := by
      positivity
    have := div_nonneg h1 h2
    linarith

theorem textScore_eq_one_iff (a b : String) :
    textScore a b = 1 ↔ normChars a = normChars b := by
  unfold textScore
  by_cases h : max (normChars a).length (normChars b).length = 0
  · rw [Nat.max_eq_zero_iff] at h
    rw [List.length_eq_zero, List.length_eq_zero] at h
    simp [Nat.max_eq_zero_iff, h.1, h.2]
  · simp only [if_neg h]
    rw [sub_eq_self]
    rw [div_eq_zero_iff]
    have hc : ((max (normChars a).length (normChars b).length : ℕ) : ℚ) ≠ 0 := by
      exact_mod_cast h
    simp only [hc, or_false]
    rw [Nat.cast_eq_zero]
    exact lev_eq_zero_iff _ _

theorem one_le_textScore_iff (a b : String) :
    1 ≤ textScore a b ↔ normChars a = normChars b := by
  constructor
  · intro h
    exact (textScore_eq_one_iff a b).mp (le_antisymm (textScore_le_one a b) h)
  · intro h
    rw [(textScore_eq_one_iff a b).mpr h]

theorem insertionSort_eq_nil_iff {α : Type} (r : α → α → Prop)
    [DecidableRel r] (l : List α) :
    List.insertionSort r l = [] ↔ l = [] := by
  have hp := List.perm_insertionSort r l
  constructor
  · intro h
    have := hp.length_eq
    rw [h] at this
    exact List.eq_nil_of_length_eq_zero this.symm
  · intro h
    subst h
    rfl

theorem mem_findPhraseOnPage_iff (page : List Block) (pageNo : ℕ)
    (phrase : String) (minDist : ℚ) (m : PhraseMatch) :
    m ∈ findPhraseOnPage page pageNo phrase minDist ↔
      m ∈ scoredMatches page pageNo phrase ∧ minDist ≤ m.score := by
  unfold findPhraseOnPage
  rw [(List.perm_insertionSort matchLE _).mem_iff]
  rw [List.mem_filter]
  simp

theorem score_eq_of_mem_scored (page : List Block) (pageNo : ℕ)
    (phrase : String) (m : PhraseMatch)
    (hm : m ∈ scoredMatches page pageNo phrase) :
    m.score = textScore phrase m.text := by
  unfold scoredMatches at hm
  rcases List.mem_map.mp hm with ⟨c, _, rfl⟩
  rfl

theorem mem_elementsIn_iff (a : AreaSelection) (idx : Index)
    (types : List BlockType) (b : Block) :
    b ∈ elementsIn a idx types ↔
      b ∈ blocksAt idx.doc a.page ∧ b.btype ∈ types ∧
        containsBox (areaBox a) b.box = true := by
  unfold elementsIn
  rw [(List.perm_insertionSort readLE _).mem_iff]
  rw [List.mem_filter]
  simp

/-- C1: for every area and built index, `form_fields_in` returns exactly
the key/value pairs obtained by taking the index's key-value listing for
the area's page and keeping those whose key block is contained in the
area under the fixed containment policy, in the same relative order as
the underlying listing. -/
theorem formFieldsIn_filters_keyValues (a : AreaSelection) (idx : Index) :
    formFieldsIn a idx =
      (keyValuesAt idx a.page).filter
        (fun kv => containsBox (areaBox a) kv.key.box) ∧
    (formFieldsIn a idx).Sublist (keyValuesAt idx a.page) := by
  constructor
  · unfold formFieldsIn
    exact filterContained_eq_filter _ _
  · unfold formFieldsIn
    rw [filterContained_eq_filter]
    exact List.filter_sublist _

/-- C7: constructing an area fails with `InvalidAreaError` if and only if
the corner invariant (top-left.y ≤ bottom-right.y and top-left.x ≤
bottom-right.x) is violated; when the invariant holds, construction
succeeds. -/
theorem mkArea_invalid_iff (tl lr : TPoint) (pg : Option ℕ) :
    ((mkArea tl lr pg = Except.error GeoError.invalidArea) ↔
      ¬ (tl.y ≤ lr.y ∧ tl.x ≤ lr.x)) ∧
    ((∃ a, mkArea tl lr pg = Except.ok a) ↔ (tl.y ≤ lr.y ∧ tl.x ≤ lr.x)) := by
  unfold mkArea cornerInvariant
  split_ifs with h
  · constructor
    · constructor
      · intro hx
        simp at hx
      · intro hx
        exact absurd h hx
    · constructor
      · intro _
        exact h
      · intro _
        exact ⟨_, rfl⟩
  · constructor
    · constructor
      · intro _
        exact h
      · intro _
        rfl
    · constructor
      · rintro ⟨a, ha⟩
        simp at ha
      · intro hx
        exact absurd hx h

/-- C8: index construction fails with `MalformedDocumentError` exactly
when some KEY_VALUE_SET key block's relationships do not resolve to one
value target or a well-formed multi-selection group with a resolving
WORD/SELECTION_ELEMENT child set; the failure is surfaced at build time
and no partial index is produced. -/
theorem build_rejects_malformed (d : Document) (w h : ℤ) :
    ((∃ idx, build d w h = Except.ok idx) ↔
      ∀ b ∈ d.allBlocks, isKeyBlock b = true → wellFormedKey d b = true) ∧
    ((build d w h = Except.error GeoError.malformedDocument) ↔
      ¬ ∀ b ∈ d.allBlocks, isKeyBlock b = true → wellFormedKey d b = true) ∧
    (∀ idx, build d w h = Except.ok idx → idx = ⟨d, w, h⟩) := by
  have hw : wellFormedDoc d = true ↔
      ∀ b ∈ d.allBlocks, isKeyBlock b = true → wellFormedKey d b = true := by
    unfold wellFormedDoc
    rw [List.all_eq_true]
    constructor
    · intro hq b hb hk
      have hx := hq b hb
      rw [hk] at hx
      simpa using hx
    · intro hq b hb
      by_cases hk : isKeyBlock b = true
      · simp [hk, hq b hb hk]
      · rw [Bool.not_eq_true] at hk
        simp [hk]
  unfold build
  split_ifs with hd
  · have hP := hw.mp hd
    refine ⟨⟨fun _ => hP, fun _ => ⟨⟨d, w, h⟩, rfl⟩⟩, ?_, ?_⟩
    · constructor
      · intro hx
        simp at hx
      · intro hx
        exact absurd hP hx
    · intro idx hok
      injection hok with hq
      exact hq.symm
  · have hP : ¬ ∀ b ∈ d.allBlocks, isKeyBlock b = true → wellFormedKey d b = true :=
      fun hx => hd (hw.mpr hx)
    refine ⟨?_, ⟨fun _ => hP, fun _ => rfl⟩, ?_⟩
    · constructor
      · rintro ⟨idx, hidx⟩
        simp at hidx
      · intro hx
        exact absurd hx hP
    · intro idx hok
      simp at hok

/-- C9: phrase search and area filtering that find nothing return the
empty sequence (they are total and an empty result is characterized by
no candidate clearing the filter), while block lookup fails closed with
`NotFoundError` exactly when the identifier is absent and otherwise
returns the block with that identifier, never a silent empty or garbage
result. -/
theorem lookups_fail_closed (idx : Index) (i : ℕ) (page : List Block)
    (pageNo : ℕ) (phrase : String) (minDist : ℚ) (a : AreaSelection)
    (types : List BlockType) :
    ((idx.blockById i = Except.error GeoError.notFound) ↔
      ∀ b ∈ idx.doc.allBlocks, b.id ≠ i) ∧
    (∀ b, idx.blockById i = Except.ok b →
      b ∈ idx.doc.allBlocks ∧ b.id = i) ∧
    ((findPhraseOnPage page pageNo phrase minDist = []) ↔
      ∀ m ∈ scoredMatches page pageNo phrase, ¬ minDist ≤ m.score) ∧
    ((elementsIn a idx types = []) ↔
      ∀ b ∈ blocksAt idx.doc a.page,
        ¬ (b.btype ∈ types ∧ containsBox (areaBox a) b.box = true)) := by
  refine ⟨?_, ?_, ?_, ?_⟩
  · unfold Index.blockById
    cases hfind : blockById? idx.doc i with
    | none =>
      unfold blockById? at hfind
      rw [List.find?_eq_none] at hfind
      constructor
      · intro _ b hb
        simpa using hfind b hb
      · intro _
        rfl
    | some b =>
      unfold blockById? at hfind
      have hmem := List.mem_of_find?_eq_some hfind
      have hid : b.id = i := by simpa using List.find?_some hfind
      constructor
      · intro hx
        simp at hx
      · intro hall
        exact absurd hid (hall b hmem)
  · intro b hb
    unfold Index.blockById at hb
    cases hfind : blockById? idx.doc i with
    | none =>
      rw [hfind] at hb
      simp at hb
    | some c =>
      rw [hfind] at hb
      simp only [Except.ok.injEq] at hb
      subst hb
      unfold blockById? at hfind
      exact ⟨List.mem_of_find?_eq_some hfind, by simpa using List.find?_some hfind⟩
  · unfold findPhraseOnPage
    rw [insertionSort_eq_nil_iff, List.filter_eq_nil_iff]
    simp
  · unfold elementsIn
    rw [insertionSort_eq_nil_iff, List.filter_eq_nil_iff]
    constructor
    · intro hall b hb hcontra
      have hx := hall b hb
      simp at hx
      have hfalse := hx hcontra.1
      rw [hcontra.2] at hfalse
      simp at hfalse
    · intro hall b hb
      simp only [Bool.and_eq_true, decide_eq_true_eq, not_and]
      intro ht hc
      exact hall b hb ⟨ht, hc⟩

/-- C2: for every existing key block and name, `add_virtual_key` appends
a new KEY_VALUE_SET-typed block whose text is the new name, whose
relationships point to the same value target(s) as the existing key, and
whose identifier is fresh and unique in the document, while every
pre-existing block — the original key, its pairing, and all others — is
left unchanged: the target page is mutated only by the append and every
other page is untouched. -/
theorem addVirtualKey_appends_fresh (name : String) (k : Block) (p : ℕ)
    (d : Document) (h : p < d.pages.length) :
    (addVirtualKey name k p d).2.text = name ∧
    (addVirtualKey name k p d).2.btype = BlockType.keyValueSet ∧
    (addVirtualKey name k p d).2.valueIds = k.valueIds ∧
    (addVirtualKey name k p d).2.id ∉ d.ids ∧
    (addVirtualKey name k p d).2 ∈ (addVirtualKey name k p d).1.allBlocks ∧
    (∀ b ∈ (addVirtualKey name k p d).1.allBlocks,
      b = (addVirtualKey name k p d).2 ∨ b ∈ d.allBlocks) ∧
    (∀ b ∈ d.allBlocks, b ∈ (addVirtualKey name k p d).1.allBlocks) ∧
    (∀ b ∈ (addVirtualKey name k p d).1.allBlocks,
      b.id = (addVirtualKey name k p d).2.id → b = (addVirtualKey name k p d).2) ∧
    (addVirtualKey name k p d).1.pages.length = d.pages.length ∧
    (addVirtualKey name k p d).1.pages.getD p [] =
      d.pages.getD p [] ++ [(addVirtualKey name k p d).2] ∧
    (∀ j, j ≠ p →
      (addVirtualKey name k p d).1.pages.getD j [] = d.pages.getD j []) := by
  refine ⟨rfl, rfl, rfl, freshId_not_mem d, ?_, ?_, ?_, ?_, ?_, ?_, ?_⟩
  · exact self_mem_appendAt d.pages p _ h
  · intro b hb
    exact mem_appendAt d.pages p _ b hb
  · intro b hb
    exact mem_appendAt_of_mem d.pages p _ b hb
  · intro b hb hid
    rcases mem_appendAt d.pages p _ b hb with hb' | hb'
    · exact hb'
    · exfalso
      apply freshId_not_mem d
      have hid2 : b.id = freshId d := hid
      rw [← hid2]
      exact List.mem_map_of_mem (fun b => b.id) hb'
  · exact appendAt_length d.pages p _
  · exact appendAt_getD_eq d.pages p _ h
  · intro j hj
    exact appendAt_getD_ne d.pages p j _ hj

/-- Witness for C2: the specification of `add_virtual_key` instantiated
on the sample document, first page, key `key1`. -/
theorem addVirtualKey_appends_fresh_witness :
    0 < sampleDoc.pages.length ∧
    ((addVirtualKey "P_Name:" key1 0 sampleDoc).2.text = "P_Name:" ∧
    (addVirtualKey "P_Name:" key1 0 sampleDoc).2.btype = BlockType.keyValueSet ∧
    (addVirtualKey "P_Name:" key1 0 sampleDoc).2.valueIds = key1.valueIds ∧
    (addVirtualKey "P_Name:" key1 0 sampleDoc).2.id ∉ sampleDoc.ids ∧
    (addVirtualKey "P_Name:" key1 0 sampleDoc).2 ∈
      (addVirtualKey "P_Name:" key1 0 sampleDoc).1.allBlocks ∧
    (∀ b ∈ (addVirtualKey "P_Name:" key1 0 sampleDoc).1.allBlocks,
      b = (addVirtualKey "P_Name:" key1 0 sampleDoc).2 ∨ b ∈ sampleDoc.allBlocks) ∧
    (∀ b ∈ sampleDoc.allBlocks,
      b ∈ (addVirtualKey "P_Name:" key1 0 sampleDoc).1.allBlocks) ∧
    (∀ b ∈ (addVirtualKey "P_Name:" key1 0 sampleDoc).1.allBlocks,
      b.id = (addVirtualKey "P_Name:" key1 0 sampleDoc).2.id →
        b = (addVirtualKey "P_Name:" key1 0 sampleDoc).2) ∧
    (addVirtualKey "P_Name:" key1 0 sampleDoc).1.pages.length =
      sampleDoc.pages.length ∧
    (addVirtualKey "P_Name:" key1 0 sampleDoc).1.pages.getD 0 [] =
      sampleDoc.pages.getD 0 [] ++ [(addVirtualKey "P_Name:" key1 0 sampleDoc).2] ∧
    (∀ j, j ≠ 0 →
      (addVirtualKey "P_Name:" key1 0 sampleDoc).1.pages.getD j [] =
        sampleDoc.pages.getD j [])) :=
  ⟨by decide, addVirtualKey_appends_fresh "P_Name:" key1 0 sampleDoc (by decide)⟩

/-- C4: calling `add_virtual_key` twice with identical arguments appends
two distinct virtual blocks with distinct identifiers; repeated calls
accumulate duplicates (both blocks carry the same name and both are
present afterwards, and the block count grows by two) rather than
deduplicate by name. -/
theorem addVirtualKey_twice_accumulates (name : String) (k : Block) (p : ℕ)
    (d : Document) (h : p < d.pages.length) :
    (addVirtualKey name k p (addVirtualKey name k p d).1).2.id ≠
      (addVirtualKey name k p d).2.id ∧
    (addVirtualKey name k p d).2.text = name ∧
    (addVirtualKey name k p (addVirtualKey name k p d).1).2.text = name ∧
    (addVirtualKey name k p d).2 ∈
      (addVirtualKey name k p (addVirtualKey name k p d).1).1.allBlocks ∧
    (addVirtualKey name k p (addVirtualKey name k p d).1).2 ∈
      (addVirtualKey name k p (addVirtualKey name k p d).1).1.allBlocks ∧
    (addVirtualKey name k p (addVirtualKey name k p d).1).1.allBlocks.length =
      d.allBlocks.length + 2 := by
  have h1 : p < (addVirtualKey name k p d).1.pages.length := by
    show p < (appendAt d.pages p (mkVirtualBlock name k d)).length
    rw [appendAt_length]
    exact h
  have hb1 : (addVirtualKey name k p d).2 ∈ (addVirtualKey name k p d).1.allBlocks :=
    self_mem_appendAt d.pages p _ h
  refine ⟨?_, rfl, rfl, ?_, ?_, ?_⟩
  · intro heq
    apply freshId_not_mem (addVirtualKey name k p d).1
    have hid : freshId (addVirtualKey name k p d).1 = (addVirtualKey name k p d).2.id :=
      heq
    rw [hid]
    exact List.mem_map_of_mem (fun b => b.id) hb1
  · exact mem_appendAt_of_mem _ p _ _ hb1
  · exact self_mem_appendAt _ p _ h1
  · have hlen1 := appendAt_flatten_length d.pages p (mkVirtualBlock name k d) h
    have hlen2 := appendAt_flatten_length (addVirtualKey name k p d).1.pages p
      (mkVirtualBlock name k (addVirtualKey name k p d).1) h1
    unfold Document.allBlocks
    unfold addVirtualKey at hlen2 ⊢
    simp only at hlen2 ⊢
    rw [hlen2, hlen1]

/-- Witness for C4: the double-append instantiated on the sample
document, first page, key `key1`. -/
theorem addVirtualKey_twice_accumulates_witness :
    0 < sampleDoc.pages.length ∧
    ((addVirtualKey "Q" key1 0 (addVirtualKey "Q" key1 0 sampleDoc).1).2.id ≠
      (addVirtualKey "Q" key1 0 sampleDoc).2.id ∧
    (addVirtualKey "Q" key1 0 sampleDoc).2.text = "Q" ∧
    (addVirtualKey "Q" key1 0 (addVirtualKey "Q" key1 0 sampleDoc).1).2.text = "Q" ∧
    (addVirtualKey "Q" key1 0 sampleDoc).2 ∈
      (addVirtualKey "Q" key1 0 (addVirtualKey "Q" key1 0 sampleDoc).1).1.allBlocks ∧
    (addVirtualKey "Q" key1 0 (addVirtualKey "Q" key1 0 sampleDoc).1).2 ∈
      (addVirtualKey "Q" key1 0 (addVirtualKey "Q" key1 0 sampleDoc).1).1.allBlocks ∧
    (addVirtualKey "Q" key1 0 (addVirtualKey "Q" key1 0 sampleDoc).1).1.allBlocks.length =
      sampleDoc.allBlocks.length + 2) :=
  ⟨by decide, addVirtualKey_twice_accumulates "Q" key1 0 sampleDoc (by decide)⟩

/-- C5 counterexample: an area shrunk to a single point (zero width and
zero height, hence zero area) still returns a block whose degenerate
bounding box coincides with that point — full enclosure holds with
equalities — so the claim's "zero area implies empty result" part is
false as stated. -/
theorem elementsIn_zero_area_cex :
    (areaBox zArea).xmax = (areaBox zArea).xmin ∧
    (areaBox zArea).ymax = (areaBox zArea).ymin ∧
    elementsIn zArea zIdx [BlockType.word] = [zBlock] ∧
    elementsIn zArea zIdx [BlockType.word] ≠ [] := by
  refine ⟨rfl, rfl, by decide, by decide⟩

/-- C5 (amended): `elements_in` returns only blocks of the requested
types whose bounding box is fully enclosed by the area's box (the fixed
containment policy); and an area shrunk to zero area (zero width or zero
height) returns the empty sequence provided every block on the area's
page has a bounding box of positive width and positive height. -/
theorem elementsIn_containment_policy (a : AreaSelection) (idx : Index)
    (types : List BlockType) :
    (∀ b ∈ elementsIn a idx types,
      b.btype ∈ types ∧ containsBox (areaBox a) b.box = true) ∧
    (((areaBox a).xmax = (areaBox a).xmin ∨ (areaBox a).ymax = (areaBox a).ymin) →
      (∀ b ∈ blocksAt idx.doc a.page,
        b.box.xmin < b.box.xmax ∧ b.box.ymin < b.box.ymax) →
      elementsIn a idx types = []) := by
  constructor
  · intro b hb
    exact ((mem_elementsIn_iff a idx types b).mp hb).2
  · intro hz hpos
    rw [List.eq_nil_iff_forall_not_mem]
    intro b hb
    rcases (mem_elementsIn_iff a idx types b).mp hb with ⟨hmem, _, hc⟩
    unfold containsBox at hc
    simp only [Bool.and_eq_true, decide_eq_true_eq] at hc
    rcases hpos b hmem with ⟨hw, hh⟩
    rcases hz with hz | hz
    · have h1 : (areaBox a).xmin ≤ b.box.xmin := hc.1.1.1
      have h2 : b.box.xmax ≤ (areaBox a).xmax := hc.1.1.2
      rw [hz] at h2
      linarith
    · have h1 : (areaBox a).ymin ≤ b.box.ymin := hc.1.2
      have h2 : b.box.ymax ≤ (areaBox a).ymax := hc.2
      rw [hz] at h2
      linarith

/-- C3: with `min_text_distance = 1.0`, `find_phrase` returns a match —
with score exactly 1 — at exactly those candidate positions whose
case/whitespace-normalized text coincides with the phrase's, and no
match anywhere else; in particular a phrase matched against its own
exact text always scores 1. -/
theorem findPhrase_exact_matching (page : List Block) (pageNo : ℕ)
    (phrase : String) :
    textScore phrase phrase = 1 ∧
    ∀ m, (m ∈ findPhraseOnPage page pageNo phrase 1 ↔
      (m ∈ scoredMatches page pageNo phrase ∧
        normChars m.text = normChars phrase ∧ m.score = 1)) := by
  constructor
  · exact (textScore_eq_one_iff phrase phrase).mpr rfl
  · intro m
    rw [mem_findPhraseOnPage_iff]
    constructor
    · rintro ⟨hm, hs⟩
      have he := score_eq_of_mem_scored page pageNo phrase m hm
      rw [he] at hs
      have hnorm := (one_le_textScore_iff phrase m.text).mp hs
      refine ⟨hm, hnorm.symm, ?_⟩
      rw [he, (textScore_eq_one_iff _ _).mpr hnorm]
    · rintro ⟨hm, _, hs⟩
      refine ⟨hm, ?_⟩
      rw [hs]

/-- C6: the returned list of phrase matches is ordered by descending
similarity score, ties broken by reading order (ascending top coordinate
of the bounding box, then ascending left coordinate), and every returned
match scores at least `min_text_distance`. -/
theorem findPhrase_ordering (page : List Block) (pageNo : ℕ)
    (phrase : String) (minDist : ℚ) :
    List.Sorted matchLE (findPhraseOnPage page pageNo phrase minDist) ∧
    ∀ m ∈ findPhraseOnPage page pageNo phrase minDist, minDist ≤ m.score := by
  constructor
  · exact List.sorted_insertionSort matchLE _
  · intro m hm
    exact ((mem_findPhraseOnPage_iff page pageNo phrase minDist m).mp hm).2

/-- C10: on an index that is not mutated between calls, `find_phrase`
and `elements_in` are deterministic — two invocations with identical
arguments return identical result sequences. -/
theorem queries_deterministic (page : List Block) (pageNo : ℕ)
    (phrase : String) (minDist : ℚ) (a : AreaSelection) (idx : Index)
    (types : List BlockType) (r₁ r₂ : List PhraseMatch) (s₁ s₂ : List Block)
    (h₁ : r₁ = findPhraseOnPage page pageNo phrase minDist)
    (h₂ : r₂ = findPhraseOnPage page pageNo phrase minDist)
    (h₃ : s₁ = elementsIn a idx types)
    (h₄ : s₂ = elementsIn a idx types) :
    r₁ = r₂ ∧ s₁ = s₂ :=
  ⟨h₁.trans h₂.symm, h₃.trans h₄.symm⟩

/-- Witness for C10: two identical invocations on the sample page and
sample area return identical sequences. -/
theorem queries_deterministic_witness :
    findPhraseOnPage samplePage 0 "fever" 1 =
      findPhraseOnPage samplePage 0 "fever" 1 ∧
    elementsIn sampleArea sampleIdx [BlockType.keyValueSet] =
      elementsIn sampleArea sampleIdx [BlockType.keyValueSet] ∧
    (findPhraseOnPage samplePage 0 "fever" 1 =
        findPhraseOnPage samplePage 0 "fever" 1 ∧
      elementsIn sampleArea sampleIdx [BlockType.keyValueSet] =
        elementsIn sampleArea sampleIdx [BlockType.keyValueSet]) :=
  ⟨rfl, rfl, queries_deterministic samplePage 0 "fever" 1 sampleArea sampleIdx
    [BlockType.keyValueSet] _ _ _ _ rfl rfl rfl rfl⟩

end GeoFinder
